import Mathlib

/-!
Verification of the resilience / flow-control toolkit of a task-management
backend: retry executor, circuit breaker, backpressure limiter, token-bucket
rate limiter, and TTL+LRU cache. Each definition is a shallow embedding of
the corresponding TypeScript function; theorems settle the specification
claims against these embeddings.
-/

namespace ScriptAssist

/-! ## Retry executor (`ResilienceService.withRetry`)

The TS loop runs `attempt = 1 .. maxAttempts`; on success it returns the
result; on failure it records `lastError`, breaks when `attempt ==
maxAttempts`, re-throws immediately when a supplied `shouldRetry` predicate
rejects the error, and otherwise sleeps and retries.  After the loop it
throws `lastError` (which is the JS value `undefined` when the loop body
never ran).  The operation is modelled as a function from the 0-based
invocation index to an `Except` outcome; delays do not affect the
control flow and are not modelled. -/

inductive RetryOutcome (E T : Type) where
  | ok : T → RetryOutcome E T
  | err : E → RetryOutcome E T
  | undef : RetryOutcome E T
deriving DecidableEq

/-- The retry loop with `n` attempts remaining, next invocation index `idx`.
Returns the outcome together with the number of invocations performed. -/
def retryGo {E T : Type} (op : Nat → Except E T) (sr : Option (E → Bool)) :
    Nat → Nat → RetryOutcome E T × Nat
  | 0, _ => (RetryOutcome.undef, 0)
  | n + 1, idx =>
    match op idx with
    | Except.ok t => (RetryOutcome.ok t, 1)
    | Except.error e =>
      if n = 0 then (RetryOutcome.err e, 1)
      else
        match sr with
        | some f =>
          if f e then
            let r := retryGo op sr n (idx + 1)
            (r.1, r.2 + 1)
          else (RetryOutcome.err e, 1)
        | none =>
          let r := retryGo op sr n (idx + 1)
          (r.1, r.2 + 1)

/-- `withRetry` from `ResilienceService`: `maxAttempts` is a TS number; the
loop `for (attempt = 1; attempt <= maxAttempts; ...)` performs
`max 0 maxAttempts` iterations. -/
def withRetry {E T : Type} (op : Nat → Except E T) (maxAttempts : Int)
    (sr : Option (E → Bool)) : RetryOutcome E T × Nat :=
  retryGo op sr maxAttempts.toNat 0

/-- A `shouldRetry` option that never rejects (absent, or constantly true). -/
def srPasses {E : Type} (sr : Option (E → Bool)) : Prop :=
  ∀ f, sr = some f → ∀ e, f e = true

/-! ## Backpressure limiter (`BackpressureService.withBackpressure`)

Per wrapped function: a counter `active` and a FIFO wait queue (only its
length matters for the claims).  The returned closure either runs
immediately (`active < maxConcurrency`), enqueues (`maxQueue === 0 ||
queue.length < maxQueue`), or rejects.  On settlement, `active--` then
`tryNext` admits the head of the queue when a slot is free. -/

structure BPState where
  active : Nat
  queueLen : Nat
deriving DecidableEq

inductive BPCallResult where
  | admitted : BPCallResult
  | queued : BPCallResult
  | rejected : BPCallResult
deriving DecidableEq

/-- The body of the wrapped closure on one incoming call. -/
def bpCall (maxConcurrency maxQueue : Nat) (s : BPState) : BPCallResult × BPState :=
  if s.active < maxConcurrency then
    (BPCallResult.admitted, { s with active := s.active + 1 })
  else if maxQueue = 0 ∨ s.queueLen < maxQueue then
    (BPCallResult.queued, { s with queueLen := s.queueLen + 1 })
  else
    (BPCallResult.rejected, s)

/-- `tryNext`: admit the queue head if a slot is free. -/
def bpTryNext (maxConcurrency : Nat) (s : BPState) : BPState :=
  if s.active < maxConcurrency ∧ 0 < s.queueLen then
    { active := s.active + 1, queueLen := s.queueLen - 1 }
  else s

/-- `.finally` handler of a settled invocation: `active--` then `tryNext`. -/
def bpSettle (maxConcurrency : Nat) (s : BPState) : BPState :=
  bpTryNext maxConcurrency { s with active := s.active - 1 }

/-- One atomic transition of the backpressure closure state. -/
inductive BPStep (maxConcurrency maxQueue : Nat) : BPState → BPState → Prop where
  | call (s : BPState) : BPStep maxConcurrency maxQueue s (bpCall maxConcurrency maxQueue s).2
  | settle (s : BPState) (h : 0 < s.active) :
      BPStep maxConcurrency maxQueue s (bpSettle maxConcurrency s)

/-- States reachable from the initial `active = 0`, empty-queue state. -/
inductive BPReachable (maxConcurrency maxQueue : Nat) : BPState → Prop where
  | init : BPReachable maxConcurrency maxQueue ⟨0, 0⟩
  | step {s t : BPState} : BPReachable maxConcurrency maxQueue s →
      BPStep maxConcurrency maxQueue s t → BPReachable maxConcurrency maxQueue t

/-! ## Circuit breaker (`ResilienceService.withCircuitBreaker`) -/

inductive CircuitState where
  | CLOSED : CircuitState
  | OPEN : CircuitState
  | HALF_OPEN : CircuitState
deriving DecidableEq

structure CircuitBreakerState where
  state : CircuitState
  failureCount : Nat
  lastFailureTime : Int
  successCount : Nat
deriving DecidableEq

structure CircuitBreakerOptions where
  failureThreshold : Nat
  resetTimeoutMs : Int
deriving DecidableEq

/-- `getOrCreateCircuit` initialises a fresh breaker record. -/
def cbInit : CircuitBreakerState :=
  { state := CircuitState.CLOSED, failureCount := 0, lastFailureTime := 0, successCount := 0 }

inductive CBPre where
  | fastFail : CBPre
  | proceed : CBPre
deriving DecidableEq

/-- The OPEN-state guard at the top of `withCircuitBreaker`: fail fast during
the cooldown, otherwise move to HALF_OPEN and proceed to the attempt. -/
def cbPreCheck (opts : CircuitBreakerOptions) (c : CircuitBreakerState) (now : Int) :
    CBPre × CircuitBreakerState :=
  if c.state = CircuitState.OPEN then
    if now - c.lastFailureTime < opts.resetTimeoutMs then
      (CBPre.fastFail, c)
    else
      (CBPre.proceed, { c with state := CircuitState.HALF_OPEN })
  else (CBPre.proceed, c)

/-- `onCircuitSuccess`: reset `failureCount`, bump `successCount`, and close a
HALF_OPEN breaker. -/
def onCircuitSuccess (c : CircuitBreakerState) : CircuitBreakerState :=
  let c1 := { c with failureCount := 0, successCount := c.successCount + 1 }
  if c1.state = CircuitState.HALF_OPEN then { c1 with state := CircuitState.CLOSED } else c1

/-- `onCircuitFailure`: bump `failureCount`, stamp `lastFailureTime`, and trip
to OPEN once the threshold is reached. -/
def onCircuitFailure (opts : CircuitBreakerOptions) (c : CircuitBreakerState)
    (now : Int) : CircuitBreakerState :=
  let c1 := { c with failureCount := c.failureCount + 1, lastFailureTime := now }
  if opts.failureThreshold ≤ c1.failureCount then
    { c1 with state := CircuitState.OPEN }
  else c1

/-- One call through `withCircuitBreaker` at time `now`, where `opSucceeds`
tells whether the wrapped operation would succeed if invoked.  Returns
whether the wrapped operation was actually invoked, and the new breaker
state. -/
def cbCall (opts : CircuitBreakerOptions) (c : CircuitBreakerState) (now : Int)
    (opSucceeds : Bool) : Bool × CircuitBreakerState :=
  match cbPreCheck opts c now with
  | (CBPre.fastFail, c1) => (false, c1)
  | (CBPre.proceed, c1) =>
    if opSucceeds then (true, onCircuitSuccess c1)
    else (true, onCircuitFailure opts c1 now)

/-! ## Token-bucket rate limiter (`PredictablePerformanceService.withRateLimit`)

Per wrapped function: `tokens` (starting at `rate`), `lastRefill`, and a FIFO
queue of pending invocations (length modelled).  `refill` fires both from the
periodic timer and at the top of each invocation. -/

structure RLState where
  tokens : Nat
  lastRefill : Int
  queueLen : Nat
deriving DecidableEq

/-- Bucket state created when the wrapper is built at time `t0`. -/
def rlInit (rate : Nat) (t0 : Int) : RLState :=
  { tokens := rate, lastRefill := t0, queueLen := 0 }

/-- The drain loop `while (tokens > 0 && queue.length > 0) ...` started with
`t` tokens and `q` queued calls; returns remaining tokens and queue length. -/
def rlDrain : Nat → Nat → Nat × Nat
  | 0, q => (0, q)
  | t + 1, 0 => (t + 1, 0)
  | t + 1, q + 1 => rlDrain t q

/-- `refill`: when the elapsed time strictly exceeds `intervalMs`, reset the
bucket to `rate`, stamp `lastRefill`, and drain the queue consuming one token
per drained call. -/
def rlRefill (rate : Nat) (intervalMs : Int) (now : Int) (s : RLState) : RLState :=
  if intervalMs < now - s.lastRefill then
    let d := rlDrain rate s.queueLen
    { tokens := d.1, lastRefill := now, queueLen := d.2 }
  else s

/-- One invocation of the wrapped function at time `now`: lazily refill, then
either consume a token and run (`true`) or join the unbounded queue
(`false`). -/
def rlInvoke (rate : Nat) (intervalMs : Int) (now : Int) (s : RLState) : Bool × RLState :=
  let s1 := rlRefill rate intervalMs now s
  if 0 < s1.tokens then (true, { s1 with tokens := s1.tokens - 1 })
  else (false, { s1 with queueLen := s1.queueLen + 1 })

/-- One atomic transition of the bucket: an invocation attempt, or a tick of
the `setInterval(refill, intervalMs / 2)` timer. -/
inductive RLStep (rate : Nat) (intervalMs : Int) : RLState → RLState → Prop where
  | invoke (now : Int) (s : RLState) :
      RLStep rate intervalMs s (rlInvoke rate intervalMs now s).2
  | tick (now : Int) (s : RLState) :
      RLStep rate intervalMs s (rlRefill rate intervalMs now s)

/-- Bucket states reachable from the freshly created bucket. -/
inductive RLReachable (rate : Nat) (intervalMs : Int) (t0 : Int) : RLState → Prop where
  | init : RLReachable rate intervalMs t0 (rlInit rate t0)
  | step {s t : RLState} : RLReachable rate intervalMs t0 s →
      RLStep rate intervalMs s t → RLReachable rate intervalMs t0 t

/-! ## TTL/LRU cache (`CacheService`)

Cached payloads are arbitrary JS values built from primitives, `null`,
`Date`s, arrays, plain objects, and `Map`s.  Every heap-allocated node
carries an address so that reference (in)equality of clones can be stated;
cloning allocates fresh addresses from a monotone counter. -/

mutual

inductive JSVal where
  | vnull : JSVal
  | vprim : String → JSVal
  | vdate : Nat → Int → JSVal
  | varr : Nat → JSList → JSVal
  | vobj : Nat → JSFields → JSVal
  | vmap : Nat → JSFields → JSVal
deriving DecidableEq

inductive JSList where
  | nil : JSList
  | cons : JSVal → JSList → JSList
deriving DecidableEq

inductive JSFields where
  | nil : JSFields
  | cons : String → JSVal → JSFields → JSFields
deriving DecidableEq

end

/-! Address-free skeleton of a JS value: the yardstick for deep equality. -/

mutual

inductive PureVal where
  | pnull : PureVal
  | pprim : String → PureVal
  | pdate : Int → PureVal
  | parr : PureList → PureVal
  | pobj : PureFields → PureVal
  | pmap : PureFields → PureVal
deriving DecidableEq

inductive PureList where
  | nil : PureList
  | cons : PureVal → PureList → PureList
deriving DecidableEq

inductive PureFields where
  | nil : PureFields
  | cons : String → PureVal → PureFields → PureFields
deriving DecidableEq

end

mutual

def eraseV : JSVal → PureVal
  | JSVal.vnull => PureVal.pnull
  | JSVal.vprim p => PureVal.pprim p
  | JSVal.vdate _ t => PureVal.pdate t
  | JSVal.varr _ es => PureVal.parr (eraseL es)
  | JSVal.vobj _ fs => PureVal.pobj (eraseF fs)
  | JSVal.vmap _ fs => PureVal.pmap (eraseF fs)

def eraseL : JSList → PureList
  | JSList.nil => PureList.nil
  | JSList.cons v vs => PureList.cons (eraseV v) (eraseL vs)

def eraseF : JSFields → PureFields
  | JSFields.nil => PureFields.nil
  | JSFields.cons k v vs => PureFields.cons k (eraseV v) (eraseF vs)

end

mutual

/-- No `Map` node occurs anywhere in the value. -/
def noMapV : JSVal → Bool
  | JSVal.vnull => true
  | JSVal.vprim _ => true
  | JSVal.vdate _ _ => true
  | JSVal.varr _ es => noMapL es
  | JSVal.vobj _ fs => noMapF fs
  | JSVal.vmap _ _ => false

def noMapL : JSList → Bool
  | JSList.nil => true
  | JSList.cons v vs => noMapV v && noMapL vs

def noMapF : JSFields → Bool
  | JSFields.nil => true
  | JSFields.cons _ v vs => noMapV v && noMapF vs

end

mutual

/-- Every node address in the value is `< n`. -/
def addrsLtV (n : Nat) : JSVal → Bool
  | JSVal.vnull => true
  | JSVal.vprim _ => true
  | JSVal.vdate a _ => a < n
  | JSVal.varr a es => decide (a < n) && addrsLtL n es
  | JSVal.vobj a fs => decide (a < n) && addrsLtF n fs
  | JSVal.vmap a fs => decide (a < n) && addrsLtF n fs

def addrsLtL (n : Nat) : JSList → Bool
  | JSList.nil => true
  | JSList.cons v vs => addrsLtV n v && addrsLtL n vs

def addrsLtF (n : Nat) : JSFields → Bool
  | JSFields.nil => true
  | JSFields.cons _ v vs => addrsLtV n v && addrsLtF n vs

end

mutual

/-- Every node address in the value is `≥ n`. -/
def addrsGeV (n : Nat) : JSVal → Bool
  | JSVal.vnull => true
  | JSVal.vprim _ => true
  | JSVal.vdate a _ => n ≤ a
  | JSVal.varr a es => decide (n ≤ a) && addrsGeL n es
  | JSVal.vobj a fs => decide (n ≤ a) && addrsGeF n fs
  | JSVal.vmap a fs => decide (n ≤ a) && addrsGeF n fs

def addrsGeL (n : Nat) : JSList → Bool
  | JSList.nil => true
  | JSList.cons v vs => addrsGeV n v && addrsGeL n vs

def addrsGeF (n : Nat) : JSFields → Bool
  | JSFields.nil => true
  | JSFields.cons _ v vs => addrsGeV n v && addrsGeF n vs

end

mutual

/-- Some node of the value lives at heap address `x`. -/
def addrMemV (x : Nat) : JSVal → Bool
  | JSVal.vnull => false
  | JSVal.vprim _ => false
  | JSVal.vdate a _ => x = a
  | JSVal.varr a es => decide (x = a) || addrMemL x es
  | JSVal.vobj a fs => decide (x = a) || addrMemF x fs
  | JSVal.vmap a fs => decide (x = a) || addrMemF x fs

def addrMemL (x : Nat) : JSList → Bool
  | JSList.nil => false
  | JSList.cons v vs => addrMemV x v || addrMemL x vs

def addrMemF (x : Nat) : JSFields → Bool
  | JSFields.nil => false
  | JSFields.cons _ v vs => addrMemV x v || addrMemF x vs

end

/-- Heap address of the top node, when the value is heap-allocated (JS
reference equality is only meaningful for such values). -/
def topAddr : JSVal → Option Nat
  | JSVal.vnull => none
  | JSVal.vprim _ => none
  | JSVal.vdate a _ => some a
  | JSVal.varr a _ => some a
  | JSVal.vobj a _ => some a
  | JSVal.vmap a _ => some a

mutual

/-- `CacheService.deepClone`, allocating fresh addresses from counter `c`:
primitives and `null` are returned as-is; a `Date` is rebuilt from its
timestamp; arrays are cloned element-wise; any other object is rebuilt from
its own enumerable properties — which for a `Map` yields an empty plain
object, since map entries are internal slots, not properties. -/
def deepCloneV (c : Nat) : JSVal → JSVal × Nat
  | JSVal.vnull => (JSVal.vnull, c)
  | JSVal.vprim p => (JSVal.vprim p, c)
  | JSVal.vdate _ t => (JSVal.vdate c t, c + 1)
  | JSVal.varr _ es =>
    let r := deepCloneL c es
    (JSVal.varr r.2 r.1, r.2 + 1)
  | JSVal.vobj _ fs =>
    let r := deepCloneF c fs
    (JSVal.vobj r.2 r.1, r.2 + 1)
  | JSVal.vmap _ _ => (JSVal.vobj c JSFields.nil, c + 1)

def deepCloneL (c : Nat) : JSList → JSList × Nat
  | JSList.nil => (JSList.nil, c)
  | JSList.cons v vs =>
    let r := deepCloneV c v
    let rs := deepCloneL r.2 vs
    (JSList.cons r.1 rs.1, rs.2)

def deepCloneF (c : Nat) : JSFields → JSFields × Nat
  | JSFields.nil => (JSFields.nil, c)
  | JSFields.cons k v vs =>
    let r := deepCloneV c v
    let rs := deepCloneF r.2 vs
    (JSFields.cons k r.1 rs.1, rs.2)

end

/-- One record of the `cache` object. -/
structure CacheItem where
  value : JSVal
  expiresAt : Int
  accessCount : Nat
  lastAccessed : Int
deriving DecidableEq

/-- The service's mutable state: the key-indexed record (an association list
in property-insertion order, as JS enumerates string keys) plus the heap
allocation counter. -/
structure CacheState where
  entries : List (String × CacheItem)
  counter : Nat
deriving DecidableEq

/-- `isValidKey`: non-empty string of length at most 250. -/
def isValidKey (key : String) : Bool :=
  decide (0 < key.length) && decide (key.length ≤ 250)

/-- Property read `cache[key]` on the key-indexed record. -/
def lookupKey (key : String) : List (String × CacheItem) → Option CacheItem
  | [] => none
  | (k0, it0) :: rest => if k0 = key then some it0 else lookupKey key rest

/-- Property removal `delete cache[key]` (keys are unique in a record). -/
def removeKey (key : String) : List (String × CacheItem) → List (String × CacheItem)
  | [] => []
  | (k0, it0) :: rest =>
    if k0 = key then removeKey key rest else (k0, it0) :: removeKey key rest

/-- The scan loop of `evictLeastRecentlyUsed`: `oldestKey` starts as the
empty string and `oldestTime` as `Date.now()`; an entry replaces the current
candidate only when its `lastAccessed` is strictly older. -/
def lruScan : List (String × CacheItem) → String → Int → String
  | [], bestKey, _ => bestKey
  | (k, it) :: rest, bestKey, bestTime =>
    if it.lastAccessed < bestTime then lruScan rest k it.lastAccessed
    else lruScan rest bestKey bestTime

/-- `evictLeastRecentlyUsed` at current time `now`: delete the scanned key
when one was found (the empty string is falsy, so no key means no
deletion). -/
def evictLeastRecentlyUsed (now : Int) (entries : List (String × CacheItem)) :
    List (String × CacheItem) :=
  let oldestKey := lruScan entries "" now
  if oldestKey = "" then entries
  else removeKey oldestKey entries

/-- Property assignment `cache[key] = item`: overwrite in place, or append. -/
def upsert (key : String) (it : CacheItem) :
    List (String × CacheItem) → List (String × CacheItem)
  | [] => [(key, it)]
  | (k0, it0) :: rest =>
    if k0 = key then (key, it) :: rest else (k0, it0) :: upsert key it rest

/-- `CacheService.set` at time `now`: invalid keys throw, which the catch
block turns into a silent no-op; at capacity with a new key the LRU entry is
evicted first; the value is deep-cloned on the way in. -/
def cacheSet (maxKeys : Nat) (st : CacheState) (key : String) (v : JSVal)
    (ttlSeconds : Int) (now : Int) : CacheState :=
  if isValidKey key then
    let entries1 :=
      if maxKeys ≤ st.entries.length ∧ lookupKey key st.entries = none then
        evictLeastRecentlyUsed now st.entries
      else st.entries
    let r := deepCloneV st.counter v
    let item : CacheItem :=
      { value := r.1, expiresAt := now + ttlSeconds * 1000,
        accessCount := 0, lastAccessed := now }
    { entries := upsert key item entries1, counter := r.2 }
  else st

/-- `CacheService.get` at time `now`: lazily evict an expired entry and
return `none`; otherwise bump the access statistics and return a deep clone
of the stored value. -/
def cacheGet (st : CacheState) (key : String) (now : Int) :
    Option JSVal × CacheState :=
  if isValidKey key then
    match lookupKey key st.entries with
    | none => (none, st)
    | some item =>
      if item.expiresAt < now then
        (none, { st with entries := removeKey key st.entries })
      else
        let item1 := { item with accessCount := item.accessCount + 1, lastAccessed := now }
        let r := deepCloneV st.counter item.value
        (some r.1, { entries := upsert key item1 st.entries, counter := r.2 })
  else (none, st)

/-- `CacheService.has` at time `now`: lazily evict an expired entry and
report `false`; otherwise report `true`. -/
def cacheHas (st : CacheState) (key : String) (now : Int) : Bool × CacheState :=
  if isValidKey key then
    match lookupKey key st.entries with
    | none => (false, st)
    | some item =>
      if item.expiresAt < now then
        (false, { st with entries := removeKey key st.entries })
      else (true, st)
  else (false, st)

/-! ## Concrete inputs used by witnesses -/

/-- Fails on the first invocation, succeeds from the second on. -/
def opFailThenOk : Nat → Except Nat Nat :=
  fun i => if i = 0 then Except.error 7 else Except.ok 5

/-- Fails on every invocation with error 9. -/
def opAlwaysFail : Nat → Except Nat Nat := fun _ => Except.error 9

/-- An already-expired cache entry. -/
def itemExpired : CacheItem :=
  { value := JSVal.vnull, expiresAt := 0, accessCount := 0, lastAccessed := 0 }

/-- A cache holding only the expired entry under key "k". -/
def stExpired : CacheState := { entries := [("k", itemExpired)], counter := 0 }

/-- A live entry whose `lastAccessed` is the clock value 5. -/
def itemTie : CacheItem :=
  { value := JSVal.vnull, expiresAt := 10000, accessCount := 0, lastAccessed := 5 }

/-- A cache at capacity `maxKeys = 1` holding `itemTie` under key "a". -/
def stTie : CacheState := { entries := [("a", itemTie)], counter := 0 }

/-- A one-entry `Map` payload. -/
def vMapEx : JSVal := JSVal.vmap 0 (JSFields.cons "x" JSVal.vnull JSFields.nil)

theorem retryGo_count_le {E T : Type} (op : Nat → Except E T)
    (sr : Option (E → Bool)) : ∀ n idx, (retryGo op sr n idx).2 ≤ n := by
  intro n
  induction n with
  | zero => intro idx; simp [retryGo]
  | succ m ih =>
    intro idx
    simp only [retryGo]
    cases h : op idx with
    | ok t => simp
    | error e =>
      by_cases hm : m = 0
      · simp [hm]
      · simp only [if_neg hm]
        cases sr with
        | none =>
          simpa using Nat.succ_le_succ (ih (idx + 1))
        | some f =>
          by_cases hf : f e
          · simp only [hf, if_pos]
            simpa using Nat.succ_le_succ (ih (idx + 1))
          · simp [hf]

theorem retryGo_success {E T : Type} (op : Nat → Except E T)
    (sr : Option (E → Bool)) (hsr : srPasses sr) :
    ∀ j n idx t, j < n →
      (∀ i, i < j → ∃ e, op (idx + i) = Except.error e) →
      op (idx + j) = Except.ok t →
      retryGo op sr n idx = (RetryOutcome.ok t, j + 1) := by
  intro j
  induction j with
  | zero =>
    intro n idx t hn _ hok
    obtain ⟨m, rfl⟩ : ∃ m, n = m + 1 := ⟨n - 1, by omega⟩
    simp only [Nat.add_zero] at hok
    simp [retryGo, hok]
  | succ jj ih =>
    intro n idx t hn hfail hok
    obtain ⟨m, rfl⟩ : ∃ m, n = m + 1 := ⟨n - 1, by omega⟩
    have hm : jj < m := by omega
    obtain ⟨e0, he0⟩ := hfail 0 (Nat.succ_pos jj)
    simp only [Nat.add_zero] at he0
    have hfail1 : ∀ i, i < jj → ∃ e, op (idx + 1 + i) = Except.error e := by
      intro i hi
      have := hfail (i + 1) (by omega)
      simpa [Nat.add_assoc, Nat.add_comm 1 i] using this
    have hok1 : op (idx + 1 + jj) = Except.ok t := by
      simpa [Nat.add_assoc, Nat.add_comm 1 jj] using hok
    have hrec := ih m (idx + 1) t hm hfail1 hok1
    have hmne : ¬ m = 0 := by omega
    simp only [retryGo, he0, if_neg hmne]
    cases hcase : sr with
    | none => rw [hcase] at hrec; simp [hrec]
    | some f =>
      have hft : f e0 = true := hsr f hcase e0
      rw [hcase] at hrec
      simp [hft, hrec]

theorem retryGo_all_fail {E T : Type} (op : Nat → Except E T)
    (sr : Option (E → Bool)) (hsr : srPasses sr) :
    ∀ n idx e, 0 < n →
      (∀ i, i < n → ∃ e0, op (idx + i) = Except.error e0) →
      op (idx + (n - 1)) = Except.error e →
      retryGo op sr n idx = (RetryOutcome.err e, n) := by
  intro n
  induction n with
  | zero => intro idx e h; omega
  | succ m ih =>
    intro idx e _ hfail hlast
    by_cases hm : m = 0
    · subst hm
      have hlast2 : op idx = Except.error e := by simpa using hlast
      simp [retryGo, hlast2]
    · obtain ⟨e0, he0⟩ := hfail 0 (Nat.succ_pos m)
      simp only [Nat.add_zero] at he0
      have hfail1 : ∀ i, i < m → ∃ e0, op (idx + 1 + i) = Except.error e0 := by
        intro i hi
        have := hfail (i + 1) (by omega)
        simpa [Nat.add_assoc, Nat.add_comm 1 i] using this
      have hlast1 : op (idx + 1 + (m - 1)) = Except.error e := by
        have h1 : idx + 1 + (m - 1) = idx + (m + 1 - 1) := by omega
        rw [h1]; exact hlast
      have hrec := ih (idx + 1) e (by omega) hfail1 hlast1
      simp only [retryGo, he0, if_neg hm]
      cases hcase : sr with
      | none => rw [hcase] at hrec; simp [hrec]
      | some f =>
        have hft : f e0 = true := hsr f hcase e0
        rw [hcase] at hrec
        simp [hft, hrec]

theorem retryGo_sr_false {E T : Type} (op : Nat → Except E T) (f : E → Bool) :
    ∀ j n idx e, j + 1 < n →
      (∀ i, i < j → ∃ e0, op (idx + i) = Except.error e0 ∧ f e0 = true) →
      op (idx + j) = Except.error e → f e = false →
      retryGo op (some f) n idx = (RetryOutcome.err e, j + 1) := by
  intro j
  induction j with
  | zero =>
    intro n idx e hn _ herr hf
    obtain ⟨m, rfl⟩ : ∃ m, n = m + 1 := ⟨n - 1, by omega⟩
    have hmne : ¬ m = 0 := by omega
    simp only [Nat.add_zero] at herr
    simp [retryGo, herr, if_neg hmne, hf]
  | succ jj ih =>
    intro n idx e hn hfail herr hf
    obtain ⟨m, rfl⟩ : ∃ m, n = m + 1 := ⟨n - 1, by omega⟩
    have hmne : ¬ m = 0 := by omega
    obtain ⟨e0, he0, hfe0⟩ := hfail 0 (Nat.succ_pos jj)
    simp only [Nat.add_zero] at he0
    have hfail1 : ∀ i, i < jj → ∃ e0, op (idx + 1 + i) = Except.error e0 ∧ f e0 = true := by
      intro i hi
      have := hfail (i + 1) (by omega)
      simpa [Nat.add_assoc, Nat.add_comm 1 i] using this
    have herr1 : op (idx + 1 + jj) = Except.error e := by
      simpa [Nat.add_assoc, Nat.add_comm 1 jj] using herr
    have hrec := ih m (idx + 1) e (by omega) hfail1 herr1 hf
    simp [retryGo, he0, if_neg hmne, hfe0, hrec]

/-- C3: with a retry policy whose `shouldRetry` never returns false and
`maxAttempts = n ≥ 1`, `withRetry` invokes the operation at most `n` times;
if the operation first succeeds on attempt `j + 1 ≤ n`, it returns that
attempt's result after exactly `j + 1` invocations; and if every one of the
`n` attempts fails, it raises the error of the `n`-th (final) attempt after
exactly `n` invocations. -/
theorem withRetry_success_and_exhaustion {E T : Type} (op : Nat → Except E T)
    (maxAttempts : Int) (sr : Option (E → Bool)) (hsr : srPasses sr) :
    (withRetry op maxAttempts sr).2 ≤ maxAttempts.toNat
    ∧ (∀ (j : Nat) (t : T), (j : Int) < maxAttempts →
        (∀ i, i < j → ∃ e, op i = Except.error e) → op j = Except.ok t →
        withRetry op maxAttempts sr = (RetryOutcome.ok t, j + 1))
    ∧ (∀ e, 0 < maxAttempts →
        (∀ i : Nat, (i : Int) < maxAttempts → ∃ e0, op i = Except.error e0) →
        op (maxAttempts.toNat - 1) = Except.error e →
        withRetry op maxAttempts sr = (RetryOutcome.err e, maxAttempts.toNat)) := by
  refine ⟨retryGo_count_le op sr _ 0, ?_, ?_⟩
  · intro j t hj hfail hok
    have hj2 : j < maxAttempts.toNat := by omega
    have := retryGo_success op sr hsr j maxAttempts.toNat 0 t hj2
      (fun i hi => by simpa using hfail i hi) (by simpa using hok)
    simpa [withRetry] using this
  · intro e hpos hfail hlast
    have h1 : 0 < maxAttempts.toNat := by omega
    have hfail2 : ∀ i, i < maxAttempts.toNat → ∃ e0, op (0 + i) = Except.error e0 := by
      intro i hi
      simpa using hfail i (by omega)
    have := retryGo_all_fail op sr hsr maxAttempts.toNat 0 e h1 hfail2
      (by simpa using hlast)
    simpa [withRetry] using this

theorem withRetry_success_and_exhaustion_witness :
    withRetry opFailThenOk 3 none = (RetryOutcome.ok 5, 2) :=
  (withRetry_success_and_exhaustion opFailThenOk 3 none
      (fun f h => Option.noConfusion h)).2.1 1 5 (by norm_num)
    (fun i hi => ⟨7, by
      have h0 : i = 0 := by omega
      subst h0
      rfl⟩)
    rfl

/-- C4: if a `shouldRetry` predicate is supplied, the operation fails on
attempt `j + 1 < maxAttempts` (all earlier attempts having failed with
retryable errors), and `shouldRetry` rejects that attempt's error, then
`withRetry` re-raises exactly that error after exactly `j + 1` invocations,
without consuming the remaining attempts. -/
theorem withRetry_nonretryable_short_circuits {E T : Type} (op : Nat → Except E T)
    (maxAttempts : Int) (f : E → Bool) (j : Nat) (e : E)
    (hj : (j : Int) + 1 < maxAttempts)
    (hfail : ∀ i, i < j → ∃ e0, op i = Except.error e0 ∧ f e0 = true)
    (herr : op j = Except.error e) (hf : f e = false) :
    withRetry op maxAttempts (some f) = (RetryOutcome.err e, j + 1) := by
  have hj2 : j + 1 < maxAttempts.toNat := by omega
  have := retryGo_sr_false op f j maxAttempts.toNat 0 e hj2
    (fun i hi => by simpa using hfail i hi) (by simpa using herr) hf
  simpa [withRetry] using this

theorem withRetry_nonretryable_short_circuits_witness :
    withRetry opAlwaysFail 2 (some (fun _ => false)) = (RetryOutcome.err 9, 1) :=
  withRetry_nonretryable_short_circuits opAlwaysFail 2 (fun _ => false) 0 9
    (by norm_num) (fun i hi => absurd hi (by omega)) rfl rfl

/-- C10: called with `maxAttempts < 1`, `withRetry` never invokes the wrapped
operation and throws the never-assigned `lastError` value (`undefined`,
modelled by `RetryOutcome.undef`) instead of succeeding or raising a
descriptive error. -/
theorem withRetry_nonpositive_attempts {E T : Type} (op : Nat → Except E T)
    (maxAttempts : Int) (sr : Option (E → Bool)) (hm : maxAttempts < 1) :
    withRetry op maxAttempts sr = (RetryOutcome.undef, 0) := by
  have h0 : maxAttempts.toNat = 0 := by omega
  simp [withRetry, h0, retryGo]

theorem withRetry_nonpositive_attempts_witness :
    withRetry opFailThenOk 0 none = (RetryOutcome.undef, 0) :=
  withRetry_nonpositive_attempts opFailThenOk 0 none (by norm_num)

/-- C8: for a backpressure-wrapped operation, every step (immediate admit,
enqueue, reject, settle-and-decrement with dequeue-admit) preserves
`active ≤ maxConcurrency`, and consequently every state reachable from the
initial idle state satisfies `active ≤ maxConcurrency`. -/
theorem bp_active_le_maxConcurrency (maxConcurrency maxQueue : Nat) :
    (∀ s t : BPState, s.active ≤ maxConcurrency →
      BPStep maxConcurrency maxQueue s t → t.active ≤ maxConcurrency)
    ∧ (∀ s : BPState, BPReachable maxConcurrency maxQueue s →
        s.active ≤ maxConcurrency) := by
  have hstep : ∀ s t : BPState, s.active ≤ maxConcurrency →
      BPStep maxConcurrency maxQueue s t → t.active ≤ maxConcurrency := by
    intro s t hs hst
    cases hst with
    | call =>
      simp only [bpCall]
      split_ifs <;> (simp_all; try omega)
    | settle h =>
      simp only [bpSettle, bpTryNext]
      split_ifs with h1 <;> (simp_all; omega)
  refine ⟨hstep, ?_⟩
  intro s hs
  induction hs with
  | init => simp
  | step hr hst ih => exact hstep _ _ ih hst

theorem bp_active_le_maxConcurrency_witness : (bpCall 2 0 ⟨0, 0⟩).2.active ≤ 2 :=
  (bp_active_le_maxConcurrency 2 0).2 _
    (BPReachable.step BPReachable.init (BPStep.call ⟨0, 0⟩))

/-- C2 counterexample: with `maxConcurrency = 1`, `maxQueue = 0` and the one
slot occupied, an additional call is queued, not rejected. -/
theorem bp_maxQueue0_full_not_rejected :
    (bpCall 1 0 ⟨1, 0⟩).1 = BPCallResult.queued
    ∧ (bpCall 1 0 ⟨1, 0⟩).1 ≠ BPCallResult.rejected := by
  decide

/-- C2 amended: with `maxQueue = 0` and all `maxConcurrency` slots occupied,
an additional call is enqueued (the queue is unbounded when `maxQueue = 0`);
it is never rejected in this configuration. -/
theorem bp_maxQueue0_full_enqueues (maxConcurrency : Nat) (s : BPState)
    (h : maxConcurrency ≤ s.active) :
    bpCall maxConcurrency 0 s =
      (BPCallResult.queued, { s with queueLen := s.queueLen + 1 }) := by
  have h1 : ¬ s.active < maxConcurrency := Nat.not_lt.mpr h
  simp [bpCall, h1]

theorem bp_maxQueue0_full_enqueues_witness :
    bpCall 1 0 ⟨1, 3⟩ = (BPCallResult.queued, ⟨1, 4⟩) :=
  bp_maxQueue0_full_enqueues 1 ⟨1, 3⟩ (by norm_num)

/-- C1: with `failureThreshold = 2`: (i) from CLOSED with `failureCount = 0`,
two consecutive failed calls leave the breaker CLOSED after the first and
OPEN after the second; (ii) while `now - lastFailureTime < resetTimeoutMs`
every call in OPEN fails fast, leaving the state untouched and never
invoking the wrapped operation; (iii) once `resetTimeoutMs` has elapsed, the
next call passes the pre-check in HALF_OPEN state before attempting the
operation, and a successful attempt moves the breaker to CLOSED with
`failureCount = 0`. -/
theorem cb_lifecycle (opts : CircuitBreakerOptions)
    (hth : opts.failureThreshold = 2) :
    (∀ (c : CircuitBreakerState) (t1 t2 : Int),
      c.state = CircuitState.CLOSED → c.failureCount = 0 →
      (cbCall opts c t1 false).2.state = CircuitState.CLOSED ∧
      (cbCall opts (cbCall opts c t1 false).2 t2 false).2.state = CircuitState.OPEN)
    ∧ (∀ (c : CircuitBreakerState) (now : Int) (b : Bool),
        c.state = CircuitState.OPEN →
        now - c.lastFailureTime < opts.resetTimeoutMs →
        cbCall opts c now b = (false, c))
    ∧ (∀ (c : CircuitBreakerState) (now : Int),
        c.state = CircuitState.OPEN →
        opts.resetTimeoutMs ≤ now - c.lastFailureTime →
        (cbPreCheck opts c now).1 = CBPre.proceed ∧
        (cbPreCheck opts c now).2.state = CircuitState.HALF_OPEN ∧
        (cbCall opts c now true).1 = true ∧
        (cbCall opts c now true).2.state = CircuitState.CLOSED ∧
        (cbCall opts c now true).2.failureCount = 0) := by
  refine ⟨?_, ?_, ?_⟩
  · intro c t1 t2 hc hfc
    have hmid : (cbCall opts c t1 false).2 =
        { c with failureCount := 1, lastFailureTime := t1 } := by
      simp [cbCall, cbPreCheck, onCircuitFailure, hc, hfc, hth]
    refine ⟨by rw [hmid]; simpa using hc, ?_⟩
    rw [hmid]
    simp [cbCall, cbPreCheck, onCircuitFailure, hc, hth]
  · intro c now b hc hlt
    simp [cbCall, cbPreCheck, hc, hlt]
  · intro c now hc hge
    have hnlt : ¬ now - c.lastFailureTime < opts.resetTimeoutMs := not_lt.mpr hge
    refine ⟨?_, ?_, ?_, ?_, ?_⟩ <;>
      simp [cbCall, cbPreCheck, onCircuitSuccess, hc, hnlt]

theorem cb_lifecycle_witness :
    (cbCall ⟨2, 100⟩ cbInit 0 false).2.state = CircuitState.CLOSED ∧
    (cbCall ⟨2, 100⟩ (cbCall ⟨2, 100⟩ cbInit 0 false).2 1 false).2.state =
      CircuitState.OPEN :=
  (cb_lifecycle ⟨2, 100⟩ rfl).1 cbInit 0 1 rfl rfl

theorem rlDrain_fst_le : ∀ t q : Nat, (rlDrain t q).1 ≤ t := by
  intro t
  induction t with
  | zero => intro q; simp [rlDrain]
  | succ n ih =>
    intro q
    cases q with
    | zero => simp [rlDrain]
    | succ m => simpa [rlDrain] using Nat.le_succ_of_le (ih m)

theorem rlRefill_tokens_le (rate : Nat) (intervalMs now : Int) (s : RLState)
    (hs : s.tokens ≤ rate) : (rlRefill rate intervalMs now s).tokens ≤ rate := by
  unfold rlRefill
  split
  · simpa using rlDrain_fst_le rate s.queueLen
  · exact hs

theorem rlStep_tokens_le (rate : Nat) (intervalMs : Int) (s t : RLState)
    (hs : s.tokens ≤ rate) (hst : RLStep rate intervalMs s t) :
    t.tokens ≤ rate := by
  cases hst with
  | invoke now s =>
    have h1 := rlRefill_tokens_le rate intervalMs now s hs
    simp only [rlInvoke]
    split <;> simp <;> omega
  | tick now s => exact rlRefill_tokens_le rate intervalMs now s hs

/-- C9: the token bucket starts with `tokens = rate`; in every state
reachable through invocation attempts and refill ticks `tokens ≤ rate`
(tokens are a natural number, so `0 ≤ tokens` throughout); and a refill whose
elapsed time since `lastRefill` does not strictly exceed `intervalMs` leaves
the bucket untouched — refill (with its queue drain, one token per drained
call) happens only when `intervalMs < now - lastRefill`. -/
theorem rl_tokens_invariant (rate : Nat) (intervalMs t0 : Int) :
    (rlInit rate t0).tokens = rate
    ∧ (∀ s : RLState, RLReachable rate intervalMs t0 s → s.tokens ≤ rate)
    ∧ (∀ (now : Int) (s : RLState), ¬ intervalMs < now - s.lastRefill →
        rlRefill rate intervalMs now s = s) := by
  refine ⟨rfl, ?_, ?_⟩
  · intro s hs
    induction hs with
    | init => simp [rlInit]
    | step hr hst ih => exact rlStep_tokens_le rate intervalMs _ _ ih hst
  · intro now s h
    unfold rlRefill
    rw [if_neg h]

theorem rl_tokens_invariant_witness :
    (rlInvoke 2 100 50 (rlInit 2 0)).2.tokens ≤ 2 :=
  (rl_tokens_invariant 2 100 0).2.1 _
    (RLReachable.step RLReachable.init (RLStep.invoke 50 (rlInit 2 0)))

theorem lookupKey_removeKey (key : String) :
    ∀ l : List (String × CacheItem), lookupKey key (removeKey key l) = none := by
  intro l
  induction l with
  | nil => rfl
  | cons hd tl ih =>
    obtain ⟨k0, it0⟩ := hd
    by_cases h : k0 = key
    · simpa [removeKey, h] using ih
    · simpa [removeKey, lookupKey, h] using ih

theorem lookupKey_upsert (key : String) (it : CacheItem) :
    ∀ l : List (String × CacheItem), lookupKey key (upsert key it l) = some it := by
  intro l
  induction l with
  | nil => simp [upsert, lookupKey]
  | cons hd tl ih =>
    obtain ⟨k0, it0⟩ := hd
    by_cases h : k0 = key
    · simp [upsert, h, lookupKey]
    · simpa [upsert, lookupKey, h] using ih

mutual

theorem deepCloneV_counter_mono (c : Nat) (v : JSVal) : c ≤ (deepCloneV c v).2 := by
  cases v with
  | vnull => simp [deepCloneV]
  | vprim p => simp [deepCloneV]
  | vdate a t => simp [deepCloneV]
  | varr a es =>
    have := deepCloneL_counter_mono c es
    simp [deepCloneV]
    omega
  | vobj a fs =>
    have := deepCloneF_counter_mono c fs
    simp [deepCloneV]
    omega
  | vmap a fs => simp [deepCloneV]

theorem deepCloneL_counter_mono (c : Nat) (vs : JSList) : c ≤ (deepCloneL c vs).2 := by
  cases vs with
  | nil => simp [deepCloneL]
  | cons v vs2 =>
    have h1 := deepCloneV_counter_mono c v
    have h2 := deepCloneL_counter_mono (deepCloneV c v).2 vs2
    simp [deepCloneL]
    omega

theorem deepCloneF_counter_mono (c : Nat) (fs : JSFields) : c ≤ (deepCloneF c fs).2 := by
  cases fs with
  | nil => simp [deepCloneF]
  | cons k v vs2 =>
    have h1 := deepCloneV_counter_mono c v
    have h2 := deepCloneF_counter_mono (deepCloneV c v).2 vs2
    simp [deepCloneF]
    omega

end

mutual

theorem erase_deepCloneV (c : Nat) (v : JSVal) (h : noMapV v = true) :
    eraseV (deepCloneV c v).1 = eraseV v := by
  cases v with
  | vnull => rfl
  | vprim p => rfl
  | vdate a t => rfl
  | varr a es =>
    have h1 : noMapL es = true := by simpa [noMapV] using h
    simp [deepCloneV, eraseV, erase_deepCloneL c es h1]
  | vobj a fs =>
    have h1 : noMapF fs = true := by simpa [noMapV] using h
    simp [deepCloneV, eraseV, erase_deepCloneF c fs h1]
  | vmap a fs => simp [noMapV] at h

theorem erase_deepCloneL (c : Nat) (vs : JSList) (h : noMapL vs = true) :
    eraseL (deepCloneL c vs).1 = eraseL vs := by
  cases vs with
  | nil => rfl
  | cons v vs2 =>
    have h1 : noMapV v = true ∧ noMapL vs2 = true := by
      simpa [noMapL, Bool.and_eq_true] using h
    simp [deepCloneL, eraseL, erase_deepCloneV c v h1.1,
      erase_deepCloneL (deepCloneV c v).2 vs2 h1.2]

theorem erase_deepCloneF (c : Nat) (fs : JSFields) (h : noMapF fs = true) :
    eraseF (deepCloneF c fs).1 = eraseF fs := by
  cases fs with
  | nil => rfl
  | cons k v vs2 =>
    have h1 : noMapV v = true ∧ noMapF vs2 = true := by
      simpa [noMapF, Bool.and_eq_true] using h
    simp [deepCloneF, eraseF, erase_deepCloneV c v h1.1,
      erase_deepCloneF (deepCloneV c v).2 vs2 h1.2]

end

mutual

theorem noMap_deepCloneV (c : Nat) (v : JSVal) : noMapV (deepCloneV c v).1 = true := by
  cases v with
  | vnull => rfl
  | vprim p => rfl
  | vdate a t => rfl
  | varr a es => simpa [deepCloneV, noMapV] using noMap_deepCloneL c es
  | vobj a fs => simpa [deepCloneV, noMapV] using noMap_deepCloneF c fs
  | vmap a fs => rfl

theorem noMap_deepCloneL (c : Nat) (vs : JSList) : noMapL (deepCloneL c vs).1 = true := by
  cases vs with
  | nil => rfl
  | cons v vs2 =>
    simp [deepCloneL, noMapL, noMap_deepCloneV c v,
      noMap_deepCloneL (deepCloneV c v).2 vs2]

theorem noMap_deepCloneF (c : Nat) (fs : JSFields) : noMapF (deepCloneF c fs).1 = true := by
  cases fs with
  | nil => rfl
  | cons k v vs2 =>
    simp [deepCloneF, noMapF, noMap_deepCloneV c v,
      noMap_deepCloneF (deepCloneV c v).2 vs2]

end

mutual

theorem addrsGe_deepCloneV (n c : Nat) (hnc : n ≤ c) (v : JSVal) :
    addrsGeV n (deepCloneV c v).1 = true := by
  cases v with
  | vnull => rfl
  | vprim p => rfl
  | vdate a t =>
    simp [deepCloneV, addrsGeV]
    omega
  | varr a es =>
    have h1 := addrsGe_deepCloneL n c hnc es
    have h2 := deepCloneL_counter_mono c es
    simp [deepCloneV, addrsGeV, Bool.and_eq_true, h1]
    omega
  | vobj a fs =>
    have h1 := addrsGe_deepCloneF n c hnc fs
    have h2 := deepCloneF_counter_mono c fs
    simp [deepCloneV, addrsGeV, Bool.and_eq_true, h1]
    omega
  | vmap a fs =>
    simp [deepCloneV, addrsGeV, addrsGeF]
    omega

theorem addrsGe_deepCloneL (n c : Nat) (hnc : n ≤ c) (vs : JSList) :
    addrsGeL n (deepCloneL c vs).1 = true := by
  cases vs with
  | nil => rfl
  | cons v vs2 =>
    have h1 := addrsGe_deepCloneV n c hnc v
    have h2 := addrsGe_deepCloneL n (deepCloneV c v).2
      (le_trans hnc (deepCloneV_counter_mono c v)) vs2
    simp [deepCloneL, addrsGeL, h1, h2]

theorem addrsGe_deepCloneF (n c : Nat) (hnc : n ≤ c) (fs : JSFields) :
    addrsGeF n (deepCloneF c fs).1 = true := by
  cases fs with
  | nil => rfl
  | cons k v vs2 =>
    have h1 := addrsGe_deepCloneV n c hnc v
    have h2 := addrsGe_deepCloneF n (deepCloneV c v).2
      (le_trans hnc (deepCloneV_counter_mono c v)) vs2
    simp [deepCloneF, addrsGeF, h1, h2]

end

theorem topAddr_lt (n : Nat) (v : JSVal) (h : addrsLtV n v = true) :
    ∀ a, topAddr v = some a → a < n := by
  intro a ha
  cases v with
  | vnull => simp [topAddr] at ha
  | vprim p => simp [topAddr] at ha
  | vdate b t =>
    simp [topAddr] at ha
    simp [addrsLtV] at h
    omega
  | varr b es =>
    simp [topAddr] at ha
    simp [addrsLtV, Bool.and_eq_true] at h
    omega
  | vobj b fs =>
    simp [topAddr] at ha
    simp [addrsLtV, Bool.and_eq_true] at h
    omega
  | vmap b fs =>
    simp [topAddr] at ha
    simp [addrsLtV, Bool.and_eq_true] at h
    omega

theorem topAddr_ge (n : Nat) (v : JSVal) (h : addrsGeV n v = true) :
    ∀ a, topAddr v = some a → n ≤ a := by
  intro a ha
  cases v with
  | vnull => simp [topAddr] at ha
  | vprim p => simp [topAddr] at ha
  | vdate b t =>
    simp [topAddr] at ha
    simp [addrsGeV] at h
    omega
  | varr b es =>
    simp [topAddr] at ha
    simp [addrsGeV, Bool.and_eq_true] at h
    omega
  | vobj b fs =>
    simp [topAddr] at ha
    simp [addrsGeV, Bool.and_eq_true] at h
    omega
  | vmap b fs =>
    simp [topAddr] at ha
    simp [addrsGeV, Bool.and_eq_true] at h
    omega

/-- C7: a valid key whose entry has already expired is lazily evicted:
`get` returns `none` and removes the entry, and `has` returns `false` and
removes the entry, independently of the background sweep. -/
theorem cache_expired_lazy_eviction (st : CacheState) (key : String) (now : Int)
    (item : CacheItem) (hk : isValidKey key = true)
    (hfind : lookupKey key st.entries = some item)
    (hexp : item.expiresAt < now) :
    (cacheGet st key now).1 = none
    ∧ lookupKey key (cacheGet st key now).2.entries = none
    ∧ (cacheHas st key now).1 = false
    ∧ lookupKey key (cacheHas st key now).2.entries = none := by
  simp [cacheGet, cacheHas, hk, hfind, hexp, lookupKey_removeKey]

theorem cache_expired_lazy_eviction_witness :
    (cacheGet stExpired "k" 5).1 = none
    ∧ lookupKey "k" (cacheGet stExpired "k" 5).2.entries = none
    ∧ (cacheHas stExpired "k" 5).1 = false
    ∧ lookupKey "k" (cacheHas stExpired "k" 5).2.entries = none :=
  cache_expired_lazy_eviction stExpired "k" 5 itemExpired (by decide)
    (by decide) (by decide)

/-- C5 (bug exhibit): with `maxKeys = 1`, a cache at capacity whose sole
entry was last accessed at the current clock value 5, and a `set` of a fresh
valid key at time 5: `evictLeastRecentlyUsed` finds no entry strictly older
than `Date.now()` and evicts nothing, so the insert proceeds and the cache
ends up holding 2 > `maxKeys` entries, the old entry still present. -/
theorem cacheSet_lru_tie_no_eviction :
    (cacheSet 1 stTie "b" JSVal.vnull 1 5).entries.length = 2
    ∧ lookupKey "a" (cacheSet 1 stTie "b" JSVal.vnull 1 5).entries =
        some itemTie := by
  decide

mutual

theorem addrsLt_monoV (n m : Nat) (hnm : n ≤ m) (v : JSVal)
    (h : addrsLtV n v = true) : addrsLtV m v = true := by
  cases v with
  | vnull => rfl
  | vprim p => rfl
  | vdate a t =>
    simp only [addrsLtV, decide_eq_true_iff] at h ⊢
    omega
  | varr a es =>
    simp only [addrsLtV, Bool.and_eq_true, decide_eq_true_iff] at h ⊢
    exact ⟨by omega, addrsLt_monoL n m hnm es h.2⟩
  | vobj a fs =>
    simp only [addrsLtV, Bool.and_eq_true, decide_eq_true_iff] at h ⊢
    exact ⟨by omega, addrsLt_monoF n m hnm fs h.2⟩
  | vmap a fs =>
    simp only [addrsLtV, Bool.and_eq_true, decide_eq_true_iff] at h ⊢
    exact ⟨by omega, addrsLt_monoF n m hnm fs h.2⟩

theorem addrsLt_monoL (n m : Nat) (hnm : n ≤ m) (vs : JSList)
    (h : addrsLtL n vs = true) : addrsLtL m vs = true := by
  cases vs with
  | nil => rfl
  | cons v vs2 =>
    simp only [addrsLtL, Bool.and_eq_true] at h ⊢
    exact ⟨addrsLt_monoV n m hnm v h.1, addrsLt_monoL n m hnm vs2 h.2⟩

theorem addrsLt_monoF (n m : Nat) (hnm : n ≤ m) (fs : JSFields)
    (h : addrsLtF n fs = true) : addrsLtF m fs = true := by
  cases fs with
  | nil => rfl
  | cons k v vs2 =>
    simp only [addrsLtF, Bool.and_eq_true] at h ⊢
    exact ⟨addrsLt_monoV n m hnm v h.1, addrsLt_monoF n m hnm vs2 h.2⟩

end

mutual

theorem addrsLt_deepCloneV (c : Nat) (v : JSVal) :
    addrsLtV (deepCloneV c v).2 (deepCloneV c v).1 = true := by
  cases v with
  | vnull => rfl
  | vprim p => rfl
  | vdate a t =>
    simp [deepCloneV, addrsLtV]
  | varr a es =>
    have h1 := addrsLt_deepCloneL c es
    have h2 := addrsLt_monoL (deepCloneL c es).2 ((deepCloneL c es).2 + 1)
      (Nat.le_succ _) (deepCloneL c es).1 h1
    simp [deepCloneV, addrsLtV, h2]
  | vobj a fs =>
    have h1 := addrsLt_deepCloneF c fs
    have h2 := addrsLt_monoF (deepCloneF c fs).2 ((deepCloneF c fs).2 + 1)
      (Nat.le_succ _) (deepCloneF c fs).1 h1
    simp [deepCloneV, addrsLtV, h2]
  | vmap a fs =>
    simp [deepCloneV, addrsLtV, addrsLtF]

theorem addrsLt_deepCloneL (c : Nat) (vs : JSList) :
    addrsLtL (deepCloneL c vs).2 (deepCloneL c vs).1 = true := by
  cases vs with
  | nil => rfl
  | cons v vs2 =>
    have h1 := addrsLt_deepCloneV c v
    have h2 := addrsLt_deepCloneL (deepCloneV c v).2 vs2
    have h3 := deepCloneL_counter_mono (deepCloneV c v).2 vs2
    have h4 := addrsLt_monoV (deepCloneV c v).2
      (deepCloneL (deepCloneV c v).2 vs2).2 h3 (deepCloneV c v).1 h1
    simp [deepCloneL, addrsLtL, h4, h2]

theorem addrsLt_deepCloneF (c : Nat) (fs : JSFields) :
    addrsLtF (deepCloneF c fs).2 (deepCloneF c fs).1 = true := by
  cases fs with
  | nil => rfl
  | cons k v vs2 =>
    have h1 := addrsLt_deepCloneV c v
    have h2 := addrsLt_deepCloneF (deepCloneV c v).2 vs2
    have h3 := deepCloneF_counter_mono (deepCloneV c v).2 vs2
    have h4 := addrsLt_monoV (deepCloneV c v).2
      (deepCloneF (deepCloneV c v).2 vs2).2 h3 (deepCloneV c v).1 h1
    simp [deepCloneF, addrsLtF, h4, h2]

end

mutual

theorem addrMem_ltV (n x : Nat) (v : JSVal) (hlt : addrsLtV n v = true)
    (hmem : addrMemV x v = true) : x < n := by
  cases v with
  | vnull => simp [addrMemV] at hmem
  | vprim p => simp [addrMemV] at hmem
  | vdate a t =>
    simp only [addrMemV, decide_eq_true_iff] at hmem
    simp only [addrsLtV, decide_eq_true_iff] at hlt
    omega
  | varr a es =>
    simp only [addrMemV, Bool.or_eq_true, decide_eq_true_iff] at hmem
    simp only [addrsLtV, Bool.and_eq_true, decide_eq_true_iff] at hlt
    cases hmem with
    | inl h => omega
    | inr h => exact addrMem_ltL n x es hlt.2 h
  | vobj a fs =>
    simp only [addrMemV, Bool.or_eq_true, decide_eq_true_iff] at hmem
    simp only [addrsLtV, Bool.and_eq_true, decide_eq_true_iff] at hlt
    cases hmem with
    | inl h => omega
    | inr h => exact addrMem_ltF n x fs hlt.2 h
  | vmap a fs =>
    simp only [addrMemV, Bool.or_eq_true, decide_eq_true_iff] at hmem
    simp only [addrsLtV, Bool.and_eq_true, decide_eq_true_iff] at hlt
    cases hmem with
    | inl h => omega
    | inr h => exact addrMem_ltF n x fs hlt.2 h

theorem addrMem_ltL (n x : Nat) (vs : JSList) (hlt : addrsLtL n vs = true)
    (hmem : addrMemL x vs = true) : x < n := by
  cases vs with
  | nil => simp [addrMemL] at hmem
  | cons v vs2 =>
    simp only [addrMemL, Bool.or_eq_true] at hmem
    simp only [addrsLtL, Bool.and_eq_true] at hlt
    cases hmem with
    | inl h => exact addrMem_ltV n x v hlt.1 h
    | inr h => exact addrMem_ltL n x vs2 hlt.2 h

theorem addrMem_ltF (n x : Nat) (fs : JSFields) (hlt : addrsLtF n fs = true)
    (hmem : addrMemF x fs = true) : x < n := by
  cases fs with
  | nil => simp [addrMemF] at hmem
  | cons k v vs2 =>
    simp only [addrMemF, Bool.or_eq_true] at hmem
    simp only [addrsLtF, Bool.and_eq_true] at hlt
    cases hmem with
    | inl h => exact addrMem_ltV n x v hlt.1 h
    | inr h => exact addrMem_ltF n x vs2 hlt.2 h

end

mutual

theorem addrMem_geV (n x : Nat) (v : JSVal) (hge : addrsGeV n v = true)
    (hmem : addrMemV x v = true) : n ≤ x := by
  cases v with
  | vnull => simp [addrMemV] at hmem
  | vprim p => simp [addrMemV] at hmem
  | vdate a t =>
    simp only [addrMemV, decide_eq_true_iff] at hmem
    simp only [addrsGeV, decide_eq_true_iff] at hge
    omega
  | varr a es =>
    simp only [addrMemV, Bool.or_eq_true, decide_eq_true_iff] at hmem
    simp only [addrsGeV, Bool.and_eq_true, decide_eq_true_iff] at hge
    cases hmem with
    | inl h => omega
    | inr h => exact addrMem_geL n x es hge.2 h
  | vobj a fs =>
    simp only [addrMemV, Bool.or_eq_true, decide_eq_true_iff] at hmem
    simp only [addrsGeV, Bool.and_eq_true, decide_eq_true_iff] at hge
    cases hmem with
    | inl h => omega
    | inr h => exact addrMem_geF n x fs hge.2 h
  | vmap a fs =>
    simp only [addrMemV, Bool.or_eq_true, decide_eq_true_iff] at hmem
    simp only [addrsGeV, Bool.and_eq_true, decide_eq_true_iff] at hge
    cases hmem with
    | inl h => omega
    | inr h => exact addrMem_geF n x fs hge.2 h

theorem addrMem_geL (n x : Nat) (vs : JSList) (hge : addrsGeL n vs = true)
    (hmem : addrMemL x vs = true) : n ≤ x := by
  cases vs with
  | nil => simp [addrMemL] at hmem
  | cons v vs2 =>
    simp only [addrMemL, Bool.or_eq_true] at hmem
    simp only [addrsGeL, Bool.and_eq_true] at hge
    cases hmem with
    | inl h => exact addrMem_geV n x v hge.1 h
    | inr h => exact addrMem_geL n x vs2 hge.2 h

theorem addrMem_geF (n x : Nat) (fs : JSFields) (hge : addrsGeF n fs = true)
    (hmem : addrMemF x fs = true) : n ≤ x := by
  cases fs with
  | nil => simp [addrMemF] at hmem
  | cons k v vs2 =>
    simp only [addrMemF, Bool.or_eq_true] at hmem
    simp only [addrsGeF, Bool.and_eq_true] at hge
    cases hmem with
    | inl h => exact addrMem_geV n x v hge.1 h
    | inr h => exact addrMem_geF n x vs2 hge.2 h

end

theorem topAddr_mem (v : JSVal) : ∀ a, topAddr v = some a → addrMemV a v = true := by
  intro a ha
  cases v with
  | vnull => simp [topAddr] at ha
  | vprim p => simp [topAddr] at ha
  | vdate b t =>
    simp only [topAddr, Option.some.injEq] at ha
    simp [addrMemV, ha]
  | varr b es =>
    simp only [topAddr, Option.some.injEq] at ha
    simp [addrMemV, ha]
  | vobj b fs =>
    simp only [topAddr, Option.some.injEq] at ha
    simp [addrMemV, ha]
  | vmap b fs =>
    simp only [topAddr, Option.some.injEq] at ha
    simp [addrMemV, ha]

/-- Values whose address sets lie in disjoint half-lines share no node. -/
theorem addrs_separated (n : Nat) (u w : JSVal) (hu : addrsLtV n u = true)
    (hw : addrsGeV n w = true) :
    ∀ x, addrMemV x u = true → addrMemV x w = true → False := by
  intro x hxu hxw
  have h1 := addrMem_ltV n x u hu hxu
  have h2 := addrMem_geV n x w hw hxw
  omega

/-- C6 counterexample: a `Map` payload set and read back is not deep-equal to
the original — `deepClone` falls through to the plain-object branch, which
finds no own enumerable properties on a `Map` and rebuilds it as an empty
plain object. -/
theorem cache_map_value_not_deep_equal :
    (cacheGet (cacheSet 10 ⟨[], 10⟩ "k" vMapEx 1 0) "k" 0).1.map eraseV =
      some (PureVal.pobj PureFields.nil)
    ∧ some (eraseV vMapEx) ≠ some (PureVal.pobj PureFields.nil) := by
  decide

/-- C6 amended: for a valid key and a value `v` built from primitives,
`null`, dates, arrays and plain objects (no `Map` nodes), whose addresses all
lie below the allocation counter: after `set(key, v, ttl)`, a first `get`
before expiry returns some `w1` and a second `get` before expiry returns
some `w2`, such that both are deep-equal to `v`; the stored copy shares no
heap address with `v` (`set` deep-copies on the way in, so later mutation of
the caller's object never changes the stored entry); `w1` shares no heap
address with the stored copy nor with `v` (`get` deep-copies on the way out,
so mutation through the returned reference cannot reach the stored entry
either); `w1` and `w2` share no heap address (repeated gets return
independent copies); and the top-level references of `v`, `w1` and `w2`
differ pairwise whenever `v` is heap-allocated (not reference-equal; dates
in particular are rebuilt from their timestamp, i.e. copied by value). -/
theorem cache_get_after_set_deep_copies (maxKeys : Nat) (st : CacheState)
    (key : String) (v : JSVal) (ttl now1 now2 now3 : Int)
    (hk : isValidKey key = true) (hnm : noMapV v = true)
    (haddr : addrsLtV st.counter v = true)
    (hfresh2 : ¬ now1 + ttl * 1000 < now2)
    (hfresh3 : ¬ now1 + ttl * 1000 < now3) :
    ∃ w1 w2,
      (cacheGet (cacheSet maxKeys st key v ttl now1) key now2).1 = some w1
      ∧ (cacheGet (cacheGet (cacheSet maxKeys st key v ttl now1) key now2).2
          key now3).1 = some w2
      ∧ eraseV w1 = eraseV v
      ∧ eraseV w2 = eraseV v
      ∧ (∀ x, addrMemV x v = true →
          addrMemV x (deepCloneV st.counter v).1 = true → False)
      ∧ (∀ x, addrMemV x (deepCloneV st.counter v).1 = true →
          addrMemV x w1 = true → False)
      ∧ (∀ x, addrMemV x v = true → addrMemV x w1 = true → False)
      ∧ (∀ x, addrMemV x w1 = true → addrMemV x w2 = true → False)
      ∧ (∀ a b, topAddr v = some a → topAddr w1 = some b → a ≠ b)
      ∧ (∀ a b, topAddr w1 = some a → topAddr w2 = some b → a ≠ b) := by
  have hmono := deepCloneV_counter_mono st.counter v
  refine ⟨(deepCloneV (deepCloneV st.counter v).2 (deepCloneV st.counter v).1).1,
    (deepCloneV (deepCloneV (deepCloneV st.counter v).2
        (deepCloneV st.counter v).1).2 (deepCloneV st.counter v).1).1,
    ?_, ?_, ?_, ?_, ?_, ?_, ?_, ?_, ?_, ?_⟩
  · simp [cacheSet, hk, cacheGet, lookupKey_upsert, hfresh2]
  · simp [cacheSet, hk, cacheGet, lookupKey_upsert, hfresh2, hfresh3]
  · exact (erase_deepCloneV _ _ (noMap_deepCloneV _ _)).trans
      (erase_deepCloneV _ _ hnm)
  · exact (erase_deepCloneV _ _ (noMap_deepCloneV _ _)).trans
      (erase_deepCloneV _ _ hnm)
  · exact addrs_separated st.counter v _ haddr
      (addrsGe_deepCloneV st.counter st.counter le_rfl v)
  · exact addrs_separated (deepCloneV st.counter v).2 _ _
      (addrsLt_deepCloneV st.counter v)
      (addrsGe_deepCloneV (deepCloneV st.counter v).2
        (deepCloneV st.counter v).2 le_rfl (deepCloneV st.counter v).1)
  · exact addrs_separated st.counter v _ haddr
      (addrsGe_deepCloneV st.counter (deepCloneV st.counter v).2 hmono
        (deepCloneV st.counter v).1)
  · exact addrs_separated (deepCloneV (deepCloneV st.counter v).2
        (deepCloneV st.counter v).1).2 _ _
      (addrsLt_deepCloneV (deepCloneV st.counter v).2 (deepCloneV st.counter v).1)
      (addrsGe_deepCloneV _ _ le_rfl (deepCloneV st.counter v).1)
  · intro a b ha hb hab
    subst hab
    exact addrs_separated st.counter v _ haddr
      (addrsGe_deepCloneV st.counter (deepCloneV st.counter v).2 hmono
        (deepCloneV st.counter v).1) a (topAddr_mem v a ha) (topAddr_mem _ a hb)
  · intro a b ha hb hab
    subst hab
    exact addrs_separated (deepCloneV (deepCloneV st.counter v).2
        (deepCloneV st.counter v).1).2 _ _
      (addrsLt_deepCloneV (deepCloneV st.counter v).2 (deepCloneV st.counter v).1)
      (addrsGe_deepCloneV _ _ le_rfl (deepCloneV st.counter v).1) a
      (topAddr_mem _ a ha) (topAddr_mem _ a hb)

theorem cache_get_after_set_deep_copies_witness :
    ∃ w1 w2,
      (cacheGet (cacheSet 10 ⟨[], 10⟩ "k" (JSVal.vdate 3 7) 1 0) "k" 0).1 =
        some w1
      ∧ (cacheGet (cacheGet (cacheSet 10 ⟨[], 10⟩ "k" (JSVal.vdate 3 7) 1 0)
          "k" 0).2 "k" 0).1 = some w2
      ∧ eraseV w1 = eraseV (JSVal.vdate 3 7)
      ∧ eraseV w2 = eraseV (JSVal.vdate 3 7)
      ∧ (∀ x, addrMemV x (JSVal.vdate 3 7) = true →
          addrMemV x (deepCloneV 10 (JSVal.vdate 3 7)).1 = true → False)
      ∧ (∀ x, addrMemV x (deepCloneV 10 (JSVal.vdate 3 7)).1 = true →
          addrMemV x w1 = true → False)
      ∧ (∀ x, addrMemV x (JSVal.vdate 3 7) = true →
          addrMemV x w1 = true → False)
      ∧ (∀ x, addrMemV x w1 = true → addrMemV x w2 = true → False)
      ∧ (∀ a b, topAddr (JSVal.vdate 3 7) = some a → topAddr w1 = some b →
          a ≠ b)
      ∧ (∀ a b, topAddr w1 = some a → topAddr w2 = some b → a ≠ b) :=
  cache_get_after_set_deep_copies 10 ⟨[], 10⟩ "k" (JSVal.vdate 3 7) 1 0 0 0
    (by decide) (by decide) (by decide) (by norm_num) (by norm_num)

end ScriptAssist
